import Mathlib

set_option maxHeartbeats 1000000

/-
Verification of `src/compute/src/emulator_service.rs` (arbitration-dlib):
the types representing the machine-manager grpc interface and the conversion
functions from the automatically generated protobuf types.

Shallow embedding conventions:
  * protobuf singular message fields (`SingularPtrField`, read through
    `into_option()`) become `Option`;
  * `u64`/`u32`/`u8` values become `Nat` (no arithmetic is performed on them);
  * a Rust panic raised by `Option::expect` / a wrong-size slice becomes an
    `Except.error`, so every conversion that can panic returns
    `Except EmulatorError _`.
-/

namespace cartesi_base

/-- `cartesi_base::MachineRequest`: machine specification, opaque to
`emulator_service` and carried through unchanged. -/
structure MachineRequest where
  blob : List Nat
  deriving DecidableEq

/-- `cartesi_base::Hash`: a hash message carrying a byte vector `content`. -/
structure Hash where
  content : List Nat
  deriving DecidableEq

/-- `cartesi_base::Word`: a word message carrying a byte vector `content`. -/
structure Word where
  content : List Nat
  deriving DecidableEq

/-- `cartesi_base::AccessOperation`. -/
inductive AccessOperation where
  | READ
  | WRITE
  deriving DecidableEq

/-- `cartesi_base::Proof`. -/
structure Proof where
  address : Nat
  log2_size : Nat
  target_hash : Option Hash
  sibling_hashes : List Hash
  root_hash : Option Hash
  deriving DecidableEq

/-- `cartesi_base::Access`. -/
structure Access where
  operation : AccessOperation
  read : Option Word
  written : Option Word
  proof : Option Proof
  deriving DecidableEq

/-- `cartesi_base::AccessLog`. -/
structure AccessLog where
  accesses : List Access
  deriving DecidableEq

/-- `cartesi_base::ReadMemoryRequest`: opaque to `emulator_service`. -/
structure ReadMemoryRequest where
  blob : List Nat
  deriving DecidableEq

/-- `cartesi_base::GetProofRequest`: opaque to `emulator_service`. -/
structure GetProofRequest where
  blob : List Nat
  deriving DecidableEq

/-- `cartesi_base::ReadMemoryResponse`. -/
structure ReadMemoryResponse where
  data : List Nat
  deriving DecidableEq

end cartesi_base

namespace manager_high

/-- `manager_high::NewSessionRequest`. -/
structure NewSessionRequest where
  machine : Option cartesi_base.MachineRequest
  session_id : String
  deriving DecidableEq

/-- `manager_high::SessionRunRequest`. -/
structure SessionRunRequest where
  session_id : String
  final_cycles : List Nat
  deriving DecidableEq

/-- `manager_high::SessionRunResult`. -/
structure SessionRunResult where
  hashes : List cartesi_base.Hash
  deriving DecidableEq

/-- `manager_high::SessionStepRequest`. -/
structure SessionStepRequest where
  session_id : String
  initial_cycle : Nat
  deriving DecidableEq

/-- `manager_high::SessionStepResult`. -/
structure SessionStepResult where
  log : Option cartesi_base.AccessLog
  deriving DecidableEq

/-- `manager_high::SessionReadMemoryRequest`. -/
structure SessionReadMemoryRequest where
  session_id : String
  cycle : Nat
  position : Option cartesi_base.ReadMemoryRequest
  deriving DecidableEq

/-- `manager_high::SessionReadMemoryResult`. -/
structure SessionReadMemoryResult where
  read_content : Option cartesi_base.ReadMemoryResponse
  deriving DecidableEq

/-- `manager_high::SessionGetProofRequest`. -/
structure SessionGetProofRequest where
  session_id : String
  cycle : Nat
  target : Option cartesi_base.GetProofRequest
  deriving DecidableEq

end manager_high

namespace emulator_service

/-- `ethereum_types::H256`: a fixed 32-byte digest. -/
abbrev H256 := {content : List Nat // content.length = 32}

/-- The ways a conversion in `emulator_service.rs` aborts. A Rust
`Option::expect` on an absent protobuf field is the spec's `MalformedRequest`
("a required field absent from a decoded request"); an `expect` on a
wrong-size byte vector is `wrongSize`. -/
inductive EmulatorError where
  | malformedRequest (msg : String)
  | wrongSize (msg : String)
  deriving DecidableEq

/-- Models Rust `field.into_option().expect(msg)` on a protobuf singular
field: an absent field aborts the conversion with a `MalformedRequest`
error carrying the panic message. -/
def expectField {α : Type} : Option α → String → Except EmulatorError α
  | some a, _ => .ok a
  | none, msg => .error (.malformedRequest msg)

/-- Models `H256::from_slice`, which requires exactly 32 bytes and
aborts otherwise. -/
def h256_from_slice (content : List Nat) : Except EmulatorError H256 :=
  if h : content.length = 32 then .ok ⟨content, h⟩
  else .error (.wrongSize "hash slice has the wrong length")

/-- Models `.map(f).collect()` over an iterator whose body may panic:
the first aborting element aborts the whole collection. -/
def mapExcept {α β : Type} (f : α → Except EmulatorError β) :
    List α → Except EmulatorError (List β)
  | [] => .ok []
  | a :: l => do
    let b ← f a
    let bs ← mapExcept f l
    return b :: bs

/-- `EMULATOR_SERVICE_NAME`. -/
def EMULATOR_SERVICE_NAME : String := "emulator"

/-- `EMULATOR_METHOD_NEW`. -/
def EMULATOR_METHOD_NEW : String :=
  "/CartesiManagerHigh.MachineManagerHigh/NewSession"

/-- `EMULATOR_METHOD_RUN`. -/
def EMULATOR_METHOD_RUN : String :=
  "/CartesiManagerHigh.MachineManagerHigh/SessionRun"

/-- `EMULATOR_METHOD_STEP`. -/
def EMULATOR_METHOD_STEP : String :=
  "/CartesiManagerHigh.MachineManagerHigh/SessionStep"

/-- `EMULATOR_METHOD_READ`. -/
def EMULATOR_METHOD_READ : String :=
  "/CartesiManagerHigh.MachineManagerHigh/SessionReadMemory"

/-- `EMULATOR_METHOD_WRITE`. -/
def EMULATOR_METHOD_WRITE : String :=
  "/CartesiManagerHigh.MachineManagerHigh/SessionWriteMemory"

/-- `EMULATOR_METHOD_PROOF`. -/
def EMULATOR_METHOD_PROOF : String :=
  "/CartesiManagerHigh.MachineManagerHigh/SessionGetProof"

/-- All global constant method names declared by `emulator_service.rs`,
in declaration order. -/
def emulatorMethodNames : List String :=
  [EMULATOR_METHOD_NEW, EMULATOR_METHOD_RUN, EMULATOR_METHOD_STEP,
   EMULATOR_METHOD_READ, EMULATOR_METHOD_WRITE, EMULATOR_METHOD_PROOF]

/-- The five logical operations of the spec (section 6), as method names.
This definition follows the SPEC's enumeration, to be compared with the
source's `emulatorMethodNames`. -/
def fiveLogicalMethodNames : List String :=
  ["/CartesiManagerHigh.MachineManagerHigh/NewSession",
   "/CartesiManagerHigh.MachineManagerHigh/SessionRun",
   "/CartesiManagerHigh.MachineManagerHigh/SessionStep",
   "/CartesiManagerHigh.MachineManagerHigh/SessionReadMemory",
   "/CartesiManagerHigh.MachineManagerHigh/SessionGetProof"]

/-- Representation of a request for new session. -/
structure NewSessionRequest where
  machine : cartesi_base.MachineRequest
  session_id : String
  deriving DecidableEq

/-- `impl From<manager_high::NewSessionRequest> for NewSessionRequest`. -/
def NewSessionRequest.ofDecoded (result : manager_high.NewSessionRequest) :
    Except EmulatorError NewSessionRequest := do
  return { machine := ← expectField result.machine "machine not found",
           session_id := result.session_id }

/-- Representation of a request for running the machine. -/
structure SessionRunRequest where
  session_id : String
  times : List Nat
  deriving DecidableEq

/-- `impl From<manager_high::SessionRunRequest> for SessionRunRequest`:
a total copy of the fields, with no validation. -/
def SessionRunRequest.ofDecoded (result : manager_high.SessionRunRequest) :
    SessionRunRequest :=
  { session_id := result.session_id, times := result.final_cycles }

/-- Representation of the result of running the machine. -/
structure SessionRunResult where
  hashes : List H256
  deriving DecidableEq

/-- `impl From<manager_high::SessionRunResult> for SessionRunResult`. -/
def SessionRunResult.ofDecoded (result : manager_high.SessionRunResult) :
    Except EmulatorError SessionRunResult := do
  return { hashes :=
    ← mapExcept (fun hash => h256_from_slice hash.content) result.hashes }

/-- Representation of the result of creating a new machine. -/
structure NewSessionResult where
  hash : H256
  deriving DecidableEq

/-- `impl From<cartesi_base::Hash> for NewSessionResult`. -/
def NewSessionResult.ofDecoded (result : cartesi_base.Hash) :
    Except EmulatorError NewSessionResult := do
  return { hash := ← h256_from_slice result.content }

/-- Access operation is either a `Read` or a `Write`. -/
inductive AccessOperation where
  | Read
  | Write
  deriving DecidableEq

/-- `impl From<cartesi_base::AccessOperation> for AccessOperation`. -/
def AccessOperation.ofDecoded : cartesi_base.AccessOperation → AccessOperation
  | .READ => .Read
  | .WRITE => .Write

/-- A proof that a certain subtree has the contents represented by
`target_hash`. -/
structure Proof where
  address : Nat
  log2_size : Nat
  target_hash : H256
  sibling_hashes : List H256
  root_hash : H256
  deriving DecidableEq

/-- `impl From<cartesi_base::Proof> for Proof`, in the source's field
evaluation order. -/
def Proof.ofDecoded (proof : cartesi_base.Proof) : Except EmulatorError Proof := do
  let target_hash ← h256_from_slice
    (← expectField proof.target_hash "target hash not found").content
  let sibling_hashes ← mapExcept (fun hash => h256_from_slice hash.content)
    proof.sibling_hashes
  let root_hash ← h256_from_slice
    (← expectField proof.root_hash "root hash not found").content
  return { address := proof.address, log2_size := proof.log2_size,
           target_hash := target_hash, sibling_hashes := sibling_hashes,
           root_hash := root_hash }

/-- An access to be logged during the step procedure. The 8-byte words
`value_read`/`value_written` (Rust `[u8; 8]`) are byte lists that
`to_bytes` guarantees to have length 8. -/
structure Access where
  operation : AccessOperation
  address : Nat
  value_read : List Nat
  value_written : List Nat
  proof : Proof
  deriving DecidableEq

/-- `fn to_bytes(input: Vec<u8>) -> Option<[u8; 8]>`. -/
def to_bytes (input : List Nat) : Option (List Nat) :=
  if input.length ≠ 8 then none
  else some [input.getD 0 0, input.getD 1 0, input.getD 2 0, input.getD 3 0,
             input.getD 4 0, input.getD 5 0, input.getD 6 0, input.getD 7 0]

/-- Models `to_bytes(...).expect(msg)`: a wrong-size byte vector aborts the
conversion. -/
def expectSize : Option (List Nat) → String → Except EmulatorError (List Nat)
  | some w, _ => .ok w
  | none, msg => .error (.wrongSize msg)

/-- `impl From<cartesi_base::Access> for Access`: the proof is converted
first; the `address` field is taken from the converted proof. -/
def Access.ofDecoded (access : cartesi_base.Access) :
    Except EmulatorError Access := do
  let proof ← Proof.ofDecoded (← expectField access.proof "proof not found")
  let value_read ← expectSize
    (to_bytes (← expectField access.read "read access not found").content)
    "read value has the wrong size"
  let value_written ← expectSize
    (to_bytes (← expectField access.written "write access not found").content)
    "write value has the wrong size"
  return { operation := AccessOperation.ofDecoded access.operation,
           address := proof.address,
           value_read := value_read, value_written := value_written,
           proof := proof }

/-- A representation of a request for a logged machine step. -/
structure SessionStepRequest where
  session_id : String
  time : Nat
  deriving DecidableEq

/-- `impl From<manager_high::SessionStepRequest> for SessionStepRequest`. -/
def SessionStepRequest.ofDecoded (result : manager_high.SessionStepRequest) :
    SessionStepRequest :=
  { session_id := result.session_id, time := result.initial_cycle }

/-- A representation of the result of a logged machine step. -/
structure SessionStepResult where
  log : List Access
  deriving DecidableEq

/-- `impl From<manager_high::SessionStepResult> for SessionStepResult`. -/
def SessionStepResult.ofDecoded (result : manager_high.SessionStepResult) :
    Except EmulatorError SessionStepResult := do
  let lg ← expectField result.log "log not found"
  let accesses ← mapExcept Access.ofDecoded lg.accesses
  return { log := accesses }

/-- Representation of a request for read the memory. -/
structure SessionReadMemoryRequest where
  session_id : String
  time : Nat
  position : cartesi_base.ReadMemoryRequest
  deriving DecidableEq

/-- `impl From<manager_high::SessionReadMemoryRequest> for
SessionReadMemoryRequest`. -/
def SessionReadMemoryRequest.ofDecoded
    (result : manager_high.SessionReadMemoryRequest) :
    Except EmulatorError SessionReadMemoryRequest := do
  return { session_id := result.session_id, time := result.cycle,
           position := ← expectField result.position "position not found" }

/-- A result from the read memory procedure. -/
structure ReadMemoryResponse where
  data : List Nat
  deriving DecidableEq

/-- `impl From<cartesi_base::ReadMemoryResponse> for ReadMemoryResponse`. -/
def ReadMemoryResponse.ofDecoded (r : cartesi_base.ReadMemoryResponse) :
    ReadMemoryResponse :=
  { data := r.data }

/-- Representation of a response for read the memory. -/
structure SessionReadMemoryResult where
  read_content : ReadMemoryResponse
  deriving DecidableEq

/-- `impl From<manager_high::SessionReadMemoryResult> for
SessionReadMemoryResult`. -/
def SessionReadMemoryResult.ofDecoded
    (result : manager_high.SessionReadMemoryResult) :
    Except EmulatorError SessionReadMemoryResult := do
  let rc ← expectField result.read_content "read_content not found"
  return { read_content := ReadMemoryResponse.ofDecoded rc }

/-- Representation of a request for get proof. -/
structure SessionGetProofRequest where
  session_id : String
  time : Nat
  target : cartesi_base.GetProofRequest
  deriving DecidableEq

/-- `impl From<manager_high::SessionGetProofRequest> for
SessionGetProofRequest`. -/
def SessionGetProofRequest.ofDecoded
    (result : manager_high.SessionGetProofRequest) :
    Except EmulatorError SessionGetProofRequest := do
  return { session_id := result.session_id, time := result.cycle,
           target := ← expectField result.target "target not found" }

/-- Representation of a response for get proof. -/
structure SessionGetProofResult where
  proof : Proof
  deriving DecidableEq

/-- `impl From<cartesi_base::Proof> for SessionGetProofResult`. -/
def SessionGetProofResult.ofDecoded (proof : cartesi_base.Proof) :
    Except EmulatorError SessionGetProofResult := do
  return { proof := ← Proof.ofDecoded proof }

/-- Modelled from the spec: the byte marshalling of
`manager_high::NewSessionRequest`. The repository's
`grpc::marshall::Marshaller` and `grpc::protobuf::MarshallerProtobuf`
(used by `From<NewSessionRequest> for Vec<u8>` and
`From<Vec<u8>> for NewSessionRequest`) are repository code not under
`src/`; the spec treats the wire encoding as an external collaborator of
which only the call/return contract matters, namely that decoding a written
message yields that message back. -/
structure NewSessionMarshaller where
  write : manager_high.NewSessionRequest → List Nat
  read : List Nat → Option manager_high.NewSessionRequest
  read_write : ∀ m, read (write m) = some m

/-- `impl From<NewSessionRequest> for Vec<u8>`: build a
`manager_high::NewSessionRequest` with `set_session_id` and `set_machine`
(so its `machine` field is present), then marshal it. -/
def NewSessionRequest.toBytes (c : NewSessionMarshaller)
    (request : NewSessionRequest) : List Nat :=
  c.write { machine := some request.machine, session_id := request.session_id }

/-- `impl From<Vec<u8>> for NewSessionRequest`: unmarshal (the source
`unwrap`s the marshaller's result, modelled as an error) and convert. -/
def NewSessionRequest.ofBytes (c : NewSessionMarshaller) (response : List Nat) :
    Except EmulatorError NewSessionRequest :=
  match c.read response with
  | none => .error (.malformedRequest "marshaller read failed")
  | some m => NewSessionRequest.ofDecoded m

/-- Spec-side predicate (the words of the run-procedure contract): a
checkpoint sequence is strictly ascending. -/
abbrev strictlyAscending (l : List Nat) : Prop := l.Chain' (fun a b => a < b)

/-- A 32-byte all-zero hash content. -/
def z32 : List Nat := List.replicate 32 0

/-- An 8-byte all-zero word content. -/
def z8 : List Nat := List.replicate 8 0

/-- A concrete decoded hash message with 32 bytes of content. -/
def exHash : cartesi_base.Hash := ⟨z32⟩

/-- The corresponding H256 digest. -/
def exH256 : H256 := ⟨z32, by decide⟩

/-- A concrete decoded proof with all hash fields present and 32 bytes long. -/
def exProofDecoded : cartesi_base.Proof :=
  ⟨7, 3, some exHash, [exHash], some exHash⟩

/-- The conversion of `exProofDecoded`. -/
def exProof : Proof := ⟨7, 3, exH256, [exH256], exH256⟩

/-- A concrete decoded 8-byte word. -/
def exWord : cartesi_base.Word := ⟨z8⟩

/-- A concrete well-formed decoded access. -/
def exAccessDecoded : cartesi_base.Access :=
  ⟨.READ, some exWord, some exWord, some exProofDecoded⟩

/-- The conversion of `exAccessDecoded`. -/
def exAccess : Access := ⟨.Read, 7, z8, z8, exProof⟩

/-- A decoded 8-byte word whose bytes are not all zero. -/
def nzWord : cartesi_base.Word := ⟨[1, 0, 0, 0, 0, 0, 0, 0]⟩

/-- A concrete decoded access with operation READ and a nonzero written
word. -/
def exReadAccessDecoded : cartesi_base.Access :=
  ⟨.READ, some exWord, some nzWord, some exProofDecoded⟩

/-- The conversion of `exReadAccessDecoded`. -/
def exReadAccess : Access := ⟨.Read, 7, z8, [1, 0, 0, 0, 0, 0, 0, 0], exProof⟩

end emulator_service

namespace emulator_service

theorem exceptBind_ok {β γ : Type} (b : β) (g : β → Except EmulatorError γ) :
    ((Except.ok b : Except EmulatorError β) >>= g) = g b := rfl

theorem exceptBind_error {β γ : Type} (e : EmulatorError)
    (g : β → Except EmulatorError γ) :
    ((Except.error e : Except EmulatorError β) >>= g) = Except.error e := rfl

theorem exceptPure {β : Type} (b : β) :
    (pure b : Except EmulatorError β) = Except.ok b := rfl

theorem to_bytes_len8 (v : List Nat) (h : v.length = 8) : to_bytes v = some v := by
  rcases v with _ | ⟨b0, v⟩; · simp at h
  rcases v with _ | ⟨b1, v⟩; · simp at h
  rcases v with _ | ⟨b2, v⟩; · simp at h
  rcases v with _ | ⟨b3, v⟩; · simp at h
  rcases v with _ | ⟨b4, v⟩; · simp at h
  rcases v with _ | ⟨b5, v⟩; · simp at h
  rcases v with _ | ⟨b6, v⟩; · simp at h
  rcases v with _ | ⟨b7, v⟩; · simp at h
  rcases v with _ | ⟨b8, v⟩
  · rfl
  · simp at h

theorem to_bytes_eq_some (v w : List Nat) :
    to_bytes v = some w ↔ (v.length = 8 ∧ w = v) := by
  constructor
  · intro h
    have hlen : v.length = 8 := by
      by_contra hne
      simp [to_bytes, hne] at h
    rw [to_bytes_len8 v hlen] at h
    exact ⟨hlen, (Option.some_inj.mp h).symm⟩
  · rintro ⟨h8, rfl⟩
    exact to_bytes_len8 _ h8

theorem mapExcept_ok_length {α β : Type} (f : α → Except EmulatorError β) :
    ∀ (l : List α) (res : List β), mapExcept f l = .ok res →
      res.length = l.length := by
  intro l
  induction l with
  | nil =>
    intro res h
    simp only [mapExcept] at h
    cases h
    rfl
  | cons a t ih =>
    intro res h
    simp only [mapExcept] at h
    cases hfa : f a with
    | error e => rw [hfa, exceptBind_error] at h; cases h
    | ok b =>
      rw [hfa, exceptBind_ok] at h
      cases hmt : mapExcept f t with
      | error e => rw [hmt, exceptBind_error] at h; cases h
      | ok bs =>
        rw [hmt, exceptBind_ok, exceptPure] at h
        cases h
        simp [ih bs hmt]

theorem mapExcept_ok_getD {α β : Type} (f : α → Except EmulatorError β) :
    ∀ (l : List α) (res : List β), mapExcept f l = .ok res →
      ∀ (i : Nat) (da : α) (db : β), i < l.length →
        f (l.getD i da) = .ok (res.getD i db) := by
  intro l
  induction l with
  | nil =>
    intro res h i da db hi
    simp at hi
  | cons a t ih =>
    intro res h i da db hi
    simp only [mapExcept] at h
    cases hfa : f a with
    | error e => rw [hfa, exceptBind_error] at h; cases h
    | ok b =>
      rw [hfa, exceptBind_ok] at h
      cases hmt : mapExcept f t with
      | error e => rw [hmt, exceptBind_error] at h; cases h
      | ok bs =>
        rw [hmt, exceptBind_ok, exceptPure] at h
        cases h
        cases i with
        | zero => simpa using hfa
        | succ i =>
          exact ih bs hmt i da db (by simpa using hi)

theorem mapExcept_ok_of_forall {α β : Type} (f : α → Except EmulatorError β) :
    ∀ (l : List α), (∀ a ∈ l, ∃ b, f a = .ok b) →
      ∃ res, mapExcept f l = .ok res := by
  intro l
  induction l with
  | nil => intro _; exact ⟨[], rfl⟩
  | cons a t ih =>
    intro h
    obtain ⟨b, hb⟩ := h a (by simp)
    obtain ⟨bs, hbs⟩ := ih (fun x hx => h x (by simp [hx]))
    refine ⟨b :: bs, ?_⟩
    simp only [mapExcept]
    rw [hb, exceptBind_ok, hbs, exceptBind_ok, exceptPure]

end emulator_service

namespace emulator_service

theorem h256_from_slice_ok (content : List Nat) (h : content.length = 32) :
    h256_from_slice content = .ok ⟨content, h⟩ := by
  simp [h256_from_slice, h]

theorem access_ofDecoded_ok_iff (a : cartesi_base.Access) (acc : Access) :
    Access.ofDecoded a = .ok acc ↔
      ∃ p pr w1 w2, a.proof = some p ∧ Proof.ofDecoded p = .ok pr ∧
        a.read = some w1 ∧ w1.content.length = 8 ∧
        a.written = some w2 ∧ w2.content.length = 8 ∧
        acc = { operation := AccessOperation.ofDecoded a.operation,
                address := pr.address, value_read := w1.content,
                value_written := w2.content, proof := pr } := by
  constructor
  · intro h
    simp only [Access.ofDecoded] at h
    cases hp : a.proof with
    | none => rw [hp] at h; simp only [expectField, exceptBind_error] at h; cases h
    | some p =>
      rw [hp] at h
      simp only [expectField, exceptBind_ok] at h
      cases hpr : Proof.ofDecoded p with
      | error e => rw [hpr, exceptBind_error] at h; cases h
      | ok pr =>
        rw [hpr, exceptBind_ok] at h
        cases hr : a.read with
        | none =>
          rw [hr] at h; simp only [expectField, exceptBind_error] at h; cases h
        | some w1 =>
          rw [hr] at h
          simp only [expectField, exceptBind_ok] at h
          cases htb : to_bytes w1.content with
          | none =>
            rw [htb] at h; simp only [expectSize, exceptBind_error] at h; cases h
          | some v1 =>
            rw [htb] at h
            simp only [expectSize, exceptBind_ok] at h
            obtain ⟨hl1, hv1⟩ := (to_bytes_eq_some _ _).mp htb
            cases hw : a.written with
            | none =>
              rw [hw] at h; simp only [expectField, exceptBind_error] at h
              cases h
            | some w2 =>
              rw [hw] at h
              simp only [expectField, exceptBind_ok] at h
              cases htb2 : to_bytes w2.content with
              | none =>
                rw [htb2] at h; simp only [expectSize, exceptBind_error] at h
                cases h
              | some v2 =>
                rw [htb2] at h
                simp only [expectSize, exceptBind_ok, exceptPure] at h
                obtain ⟨hl2, hv2⟩ := (to_bytes_eq_some _ _).mp htb2
                cases h
                exact ⟨p, pr, w1, w2, rfl, hpr, rfl, hl1, rfl, hl2,
                  by rw [hv1, hv2]⟩
  · rintro ⟨p, pr, w1, w2, hp, hpr, hr, hl1, hw, hl2, rfl⟩
    simp only [Access.ofDecoded, hp, expectField, exceptBind_ok, hpr, hr,
      to_bytes_len8 _ hl1, expectSize, hw, to_bytes_len8 _ hl2, exceptPure]

theorem proof_ofDecoded_ok (p : cartesi_base.Proof) (th rh : cartesi_base.Hash)
    (hth : p.target_hash = some th) (hrh : p.root_hash = some rh)
    (h1 : th.content.length = 32) (h2 : rh.content.length = 32)
    (hs : ∀ h ∈ p.sibling_hashes, h.content.length = 32) :
    ∃ pr, Proof.ofDecoded p = .ok pr := by
  obtain ⟨sibs, hsibs⟩ :=
    mapExcept_ok_of_forall (fun hash => h256_from_slice hash.content)
      p.sibling_hashes
      (fun x hx => ⟨⟨x.content, hs x hx⟩, h256_from_slice_ok _ (hs x hx)⟩)
  refine ⟨⟨p.address, p.log2_size, ⟨th.content, h1⟩, sibs, ⟨rh.content, h2⟩⟩, ?_⟩
  simp only [Proof.ofDecoded, hth, hrh, expectField, exceptBind_ok,
    h256_from_slice_ok _ h1, h256_from_slice_ok _ h2, hsibs, exceptPure]

theorem exProof_ofDecoded : Proof.ofDecoded exProofDecoded = .ok exProof := rfl

theorem exAccess_ofDecoded : Access.ofDecoded exAccessDecoded = .ok exAccess := rfl

end emulator_service

namespace emulator_service

/-- C1: for every decoded request or result with a required field absent (the
machine in NewSessionRequest, the proof, read value or written value in an
Access, the position in SessionReadMemoryRequest, the target in
SessionGetProofRequest, the log in SessionStepResult), the conversion aborts
with a MalformedRequest error carrying the missing field's message; being a
pure function of the one decoded value, it aborts only that request. -/
theorem missing_field_surfaces_malformed_request :
    (∀ r : manager_high.NewSessionRequest, r.machine = none →
      NewSessionRequest.ofDecoded r =
        .error (.malformedRequest "machine not found")) ∧
    (∀ a : cartesi_base.Access, a.proof = none →
      Access.ofDecoded a = .error (.malformedRequest "proof not found")) ∧
    (∀ (a : cartesi_base.Access) (p : cartesi_base.Proof) (pr : Proof),
      a.proof = some p → Proof.ofDecoded p = .ok pr → a.read = none →
      Access.ofDecoded a = .error (.malformedRequest "read access not found")) ∧
    (∀ (a : cartesi_base.Access) (p : cartesi_base.Proof) (pr : Proof)
        (w1 : cartesi_base.Word),
      a.proof = some p → Proof.ofDecoded p = .ok pr → a.read = some w1 →
      w1.content.length = 8 → a.written = none →
      Access.ofDecoded a = .error (.malformedRequest "write access not found")) ∧
    (∀ r : manager_high.SessionReadMemoryRequest, r.position = none →
      SessionReadMemoryRequest.ofDecoded r =
        .error (.malformedRequest "position not found")) ∧
    (∀ r : manager_high.SessionGetProofRequest, r.target = none →
      SessionGetProofRequest.ofDecoded r =
        .error (.malformedRequest "target not found")) ∧
    (∀ r : manager_high.SessionStepResult, r.log = none →
      SessionStepResult.ofDecoded r =
        .error (.malformedRequest "log not found")) := by
  refine ⟨?_, ?_, ?_, ?_, ?_, ?_, ?_⟩
  · intro r h
    simp [NewSessionRequest.ofDecoded, h, expectField, exceptBind_error]
  · intro a h
    simp [Access.ofDecoded, h, expectField, exceptBind_error]
  · intro a p pr hp hpr hr
    simp [Access.ofDecoded, hp, hpr, hr, expectField, exceptBind_ok,
      exceptBind_error]
  · intro a p pr w1 hp hpr hr hl hw
    simp [Access.ofDecoded, hp, hpr, hr, hw, to_bytes_len8 _ hl, expectField,
      expectSize, exceptBind_ok, exceptBind_error]
  · intro r h
    simp [SessionReadMemoryRequest.ofDecoded, h, expectField, exceptBind_error]
  · intro r h
    simp [SessionGetProofRequest.ofDecoded, h, expectField, exceptBind_error]
  · intro r h
    simp [SessionStepResult.ofDecoded, h, expectField, exceptBind_error]

/-- C1 witness: each conversion, at a concrete decoded value with the
required field absent, yields the MalformedRequest error. -/
theorem missing_field_surfaces_malformed_request_witness :
    NewSessionRequest.ofDecoded ⟨none, "sid"⟩ =
      .error (.malformedRequest "machine not found") ∧
    Access.ofDecoded ⟨.READ, some exWord, some exWord, none⟩ =
      .error (.malformedRequest "proof not found") ∧
    Access.ofDecoded ⟨.READ, none, some exWord, some exProofDecoded⟩ =
      .error (.malformedRequest "read access not found") ∧
    Access.ofDecoded ⟨.READ, some exWord, none, some exProofDecoded⟩ =
      .error (.malformedRequest "write access not found") ∧
    SessionReadMemoryRequest.ofDecoded ⟨"sid", 0, none⟩ =
      .error (.malformedRequest "position not found") ∧
    SessionGetProofRequest.ofDecoded ⟨"sid", 0, none⟩ =
      .error (.malformedRequest "target not found") ∧
    SessionStepResult.ofDecoded ⟨none⟩ =
      .error (.malformedRequest "log not found") :=
  ⟨missing_field_surfaces_malformed_request.1 ⟨none, "sid"⟩ rfl,
   missing_field_surfaces_malformed_request.2.1 _ rfl,
   missing_field_surfaces_malformed_request.2.2.1 _ exProofDecoded exProof
     rfl rfl rfl,
   missing_field_surfaces_malformed_request.2.2.2.1 _ exProofDecoded exProof
     exWord rfl rfl rfl rfl rfl,
   missing_field_surfaces_malformed_request.2.2.2.2.1 ⟨"sid", 0, none⟩ rfl,
   missing_field_surfaces_malformed_request.2.2.2.2.2.1 ⟨"sid", 0, none⟩ rfl,
   missing_field_surfaces_malformed_request.2.2.2.2.2.2 ⟨none⟩ rfl⟩

/-- C2 as stated is false: besides the five logical operations, the service
declares a sixth global constant method name, SessionWriteMemory. -/
theorem method_names_counterexample :
    EMULATOR_METHOD_WRITE ∈ emulatorMethodNames ∧
    EMULATOR_METHOD_WRITE ∉ fiveLogicalMethodNames := by
  constructor
  · simp [emulatorMethodNames]
  · decide

/-- C2 amended: the set of global constant method names declared by the
service is exactly the five logical operations together with the
SessionWriteMemory method. -/
theorem method_names_amended (m : String) :
    m ∈ emulatorMethodNames ↔
      (m ∈ fiveLogicalMethodNames ∨ m = EMULATOR_METHOD_WRITE) := by
  simp only [emulatorMethodNames, fiveLogicalMethodNames, EMULATOR_METHOD_NEW,
    EMULATOR_METHOD_RUN, EMULATOR_METHOD_STEP, EMULATOR_METHOD_READ,
    EMULATOR_METHOD_WRITE, EMULATOR_METHOD_PROOF, List.mem_cons,
    List.not_mem_nil, or_false]
  tauto

/-- C3: to_bytes returns some 8-byte array iff its input has length exactly 8,
and then the result is the input itself (so the i-th byte of the result equals
the i-th byte of the input); consequently the value_read and value_written of
every successfully converted Access are exactly the bytes carried by the
decoded access. -/
theorem to_bytes_correct :
    (∀ v : List Nat, (to_bytes v).isSome ↔ v.length = 8) ∧
    (∀ v w : List Nat, to_bytes v = some w → w = v) ∧
    (∀ (a : cartesi_base.Access) (acc : Access), Access.ofDecoded a = .ok acc →
      ∃ w1 w2, a.read = some w1 ∧ a.written = some w2 ∧
        acc.value_read = w1.content ∧ acc.value_written = w2.content) := by
  refine ⟨?_, ?_, ?_⟩
  · intro v
    constructor
    · intro h
      obtain ⟨w, hw⟩ := Option.isSome_iff_exists.mp h
      exact ((to_bytes_eq_some v w).mp hw).1
    · intro h
      rw [to_bytes_len8 v h]
      rfl
  · intro v w h
    exact ((to_bytes_eq_some v w).mp h).2
  · intro a acc h
    obtain ⟨p, pr, w1, w2, hp, hpr, hr, hl1, hw, hl2, rfl⟩ :=
      (access_ofDecoded_ok_iff a acc).mp h
    exact ⟨w1, w2, hr, hw, rfl, rfl⟩

/-- C3 witness: to_bytes succeeds on a concrete 8-byte vector, and a concrete
converted access carries exactly the decoded bytes. -/
theorem to_bytes_correct_witness :
    (to_bytes z8).isSome ∧
    ∃ w1 w2, exAccessDecoded.read = some w1 ∧
      exAccessDecoded.written = some w2 ∧
      exAccess.value_read = w1.content ∧ exAccess.value_written = w2.content :=
  ⟨(to_bytes_correct.1 z8).mpr rfl,
   to_bytes_correct.2.2 exAccessDecoded exAccess rfl⟩

end emulator_service

namespace emulator_service

/-- C4: converting a decoded SessionStepResult preserves the step log exactly:
the resulting log has the same number of entries as the decoded accesses
sequence, and the i-th entry of the result is the conversion of the i-th
decoded access, so chronological order is preserved. -/
theorem sessionStepResult_preserves_log
    (r : manager_high.SessionStepResult) (res : SessionStepResult)
    (h : SessionStepResult.ofDecoded r = .ok res) :
    ∃ lg, r.log = some lg ∧
      res.log.length = lg.accesses.length ∧
      ∀ (i : Nat) (da : cartesi_base.Access) (db : Access),
        i < lg.accesses.length →
        Access.ofDecoded (lg.accesses.getD i da) = .ok (res.log.getD i db) := by
  cases hl : r.log with
  | none =>
    simp only [SessionStepResult.ofDecoded, hl, expectField,
      exceptBind_error] at h
    cases h
  | some lg =>
    simp only [SessionStepResult.ofDecoded, hl, expectField,
      exceptBind_ok] at h
    cases hm : mapExcept Access.ofDecoded lg.accesses with
    | error e => rw [hm, exceptBind_error] at h; cases h
    | ok accs =>
      rw [hm, exceptBind_ok, exceptPure] at h
      cases h
      exact ⟨lg, rfl, mapExcept_ok_length _ _ _ hm,
        fun i da db hi => mapExcept_ok_getD _ _ _ hm i da db hi⟩

/-- C4 witness: a concrete one-access step result converts entrywise. -/
theorem sessionStepResult_preserves_log_witness :
    ∃ lg, (⟨some ⟨[exAccessDecoded]⟩⟩ :
        manager_high.SessionStepResult).log = some lg ∧
      (⟨[exAccess]⟩ : SessionStepResult).log.length = lg.accesses.length ∧
      ∀ (i : Nat) (da : cartesi_base.Access) (db : Access),
        i < lg.accesses.length →
        Access.ofDecoded (lg.accesses.getD i da) =
          .ok ((⟨[exAccess]⟩ : SessionStepResult).log.getD i db) :=
  sessionStepResult_preserves_log ⟨some ⟨[exAccessDecoded]⟩⟩ ⟨[exAccess]⟩ rfl

/-- C5: converting a decoded SessionRunResult yields one hash per decoded
hash, in the same order: the hashes vector of the result has the same length
as the decoded hashes sequence and its i-th element is the 32-byte digest
built from the i-th decoded hash's content. -/
theorem sessionRunResult_preserves_hashes
    (r : manager_high.SessionRunResult) (res : SessionRunResult)
    (h : SessionRunResult.ofDecoded r = .ok res) :
    res.hashes.length = r.hashes.length ∧
    ∀ (i : Nat) (da : cartesi_base.Hash) (db : H256), i < r.hashes.length →
      h256_from_slice ((r.hashes.getD i da).content) =
        .ok (res.hashes.getD i db) := by
  simp only [SessionRunResult.ofDecoded] at h
  cases hm : mapExcept (fun hash => h256_from_slice hash.content) r.hashes with
  | error e => rw [hm, exceptBind_error] at h; cases h
  | ok hs =>
    rw [hm, exceptBind_ok, exceptPure] at h
    cases h
    exact ⟨mapExcept_ok_length _ _ _ hm,
      fun i da db hi => mapExcept_ok_getD _ _ _ hm i da db hi⟩

/-- C5 witness: a concrete one-hash run result converts entrywise. -/
theorem sessionRunResult_preserves_hashes_witness :
    (⟨[exH256]⟩ : SessionRunResult).hashes.length =
      (⟨[exHash]⟩ : manager_high.SessionRunResult).hashes.length ∧
    ∀ (i : Nat) (da : cartesi_base.Hash) (db : H256),
      i < (⟨[exHash]⟩ : manager_high.SessionRunResult).hashes.length →
      h256_from_slice
          (((⟨[exHash]⟩ : manager_high.SessionRunResult).hashes.getD
            i da).content) =
        .ok ((⟨[exH256]⟩ : SessionRunResult).hashes.getD i db) :=
  sessionRunResult_preserves_hashes ⟨[exHash]⟩ ⟨[exH256]⟩ rfl

/-- C6: under the precondition that every decoded hash content has length 32,
the hash conversions all succeed (the wrong-length failure branch is
unreachable) and every produced digest (NewSessionResult.hash, each element
of SessionRunResult.hashes, and the target_hash, sibling_hashes elements and
root_hash of a converted Proof) is a fixed 32-byte digest. -/
theorem converted_hashes_are_32_bytes :
    (∀ hsh : cartesi_base.Hash, hsh.content.length = 32 →
      ∃ res, NewSessionResult.ofDecoded hsh = .ok res ∧
        res.hash.val.length = 32) ∧
    (∀ r : manager_high.SessionRunResult,
      (∀ hsh ∈ r.hashes, hsh.content.length = 32) →
      ∃ res, SessionRunResult.ofDecoded r = .ok res ∧
        ∀ x ∈ res.hashes, x.val.length = 32) ∧
    (∀ (p : cartesi_base.Proof) (th rh : cartesi_base.Hash),
      p.target_hash = some th → p.root_hash = some rh →
      th.content.length = 32 → rh.content.length = 32 →
      (∀ hsh ∈ p.sibling_hashes, hsh.content.length = 32) →
      ∃ pr, Proof.ofDecoded p = .ok pr ∧ pr.target_hash.val.length = 32 ∧
        pr.root_hash.val.length = 32 ∧
        ∀ x ∈ pr.sibling_hashes, x.val.length = 32) := by
  refine ⟨?_, ?_, ?_⟩
  · intro hsh hl
    refine ⟨⟨⟨hsh.content, hl⟩⟩, ?_, hl⟩
    simp only [NewSessionResult.ofDecoded, h256_from_slice_ok _ hl,
      exceptBind_ok, exceptPure]
  · intro r hl
    obtain ⟨hs, hm⟩ := mapExcept_ok_of_forall _ r.hashes
      (fun x hx => ⟨⟨x.content, hl x hx⟩, h256_from_slice_ok _ (hl x hx)⟩)
    refine ⟨⟨hs⟩, ?_, fun x _ => x.property⟩
    simp only [SessionRunResult.ofDecoded, hm, exceptBind_ok, exceptPure]
  · intro p th rh hth hrh h1 h2 hs
    obtain ⟨pr, hpr⟩ := proof_ofDecoded_ok p th rh hth hrh h1 h2 hs
    exact ⟨pr, hpr, pr.target_hash.property, pr.root_hash.property,
      fun x _ => x.property⟩

/-- C6 witness: the three conversions succeed on concrete 32-byte inputs and
produce 32-byte digests. -/
theorem converted_hashes_are_32_bytes_witness :
    (∃ res, NewSessionResult.ofDecoded exHash = .ok res ∧
      res.hash.val.length = 32) ∧
    (∃ res, SessionRunResult.ofDecoded ⟨[exHash]⟩ = .ok res ∧
      ∀ x ∈ res.hashes, x.val.length = 32) ∧
    (∃ pr, Proof.ofDecoded exProofDecoded = .ok pr ∧
      pr.target_hash.val.length = 32 ∧ pr.root_hash.val.length = 32 ∧
      ∀ x ∈ pr.sibling_hashes, x.val.length = 32) :=
  ⟨converted_hashes_are_32_bytes.1 exHash rfl,
   converted_hashes_are_32_bytes.2.1 ⟨[exHash]⟩ (by decide),
   converted_hashes_are_32_bytes.2.2 exProofDecoded exHash exHash rfl rfl
     rfl rfl (by decide)⟩

end emulator_service

namespace emulator_service

theorem proof_ofDecoded_address (p : cartesi_base.Proof) (pr : Proof)
    (h : Proof.ofDecoded p = .ok pr) : pr.address = p.address := by
  simp only [Proof.ofDecoded] at h
  cases hth : p.target_hash with
  | none =>
    rw [hth] at h; simp only [expectField, exceptBind_error] at h; cases h
  | some th =>
    rw [hth] at h
    simp only [expectField, exceptBind_ok] at h
    cases h1 : h256_from_slice th.content with
    | error e => rw [h1, exceptBind_error] at h; cases h
    | ok t =>
      rw [h1, exceptBind_ok] at h
      cases h2 : mapExcept (fun hash => h256_from_slice hash.content)
          p.sibling_hashes with
      | error e => rw [h2, exceptBind_error] at h; cases h
      | ok sibs =>
        rw [h2, exceptBind_ok] at h
        cases hrh : p.root_hash with
        | none =>
          rw [hrh] at h; simp only [expectField, exceptBind_error] at h
          cases h
        | some rh =>
          rw [hrh] at h
          simp only [expectField, exceptBind_ok] at h
          cases h3 : h256_from_slice rh.content with
          | error e => rw [h3, exceptBind_error] at h; cases h
          | ok rt =>
            rw [h3, exceptBind_ok, exceptPure] at h
            cases h
            rfl

/-- C7 as stated is false on the conversion: a decoded access with operation
READ and a nonzero written word converts successfully to an Access whose
operation is Read but whose value_written is not the all-zero 8-byte word;
the conversion enforces no zero-write invariant for Read accesses. -/
theorem read_access_zero_written_counterexample :
    Access.ofDecoded exReadAccessDecoded = .ok exReadAccess ∧
    exReadAccess.operation = AccessOperation.Read ∧
    exReadAccess.value_written ≠ List.replicate 8 0 :=
  ⟨rfl, rfl, by decide⟩

/-- C7 amended: for every Access whose operation is Read that the conversion
produces, value_written is the verbatim copy of the decoded access's written
word; it is the all-zero word only when the decoded word is, since the
conversion enforces no all-zero invariant. -/
theorem access_value_written_verbatim
    (a : cartesi_base.Access) (acc : Access)
    (h : Access.ofDecoded a = .ok acc) (hop : acc.operation = .Read) :
    ∃ w2, a.written = some w2 ∧ acc.value_written = w2.content := by
  obtain ⟨p, pr, w1, w2, hp, hpr, hr, hl1, hw, hl2, rfl⟩ :=
    (access_ofDecoded_ok_iff a acc).mp h
  exact ⟨w2, hw, rfl⟩

/-- C7 amended witness: a concrete converted Read access carries the decoded
written word verbatim. -/
theorem access_value_written_verbatim_witness :
    ∃ w2, exReadAccessDecoded.written = some w2 ∧
      exReadAccess.value_written = w2.content :=
  access_value_written_verbatim exReadAccessDecoded exReadAccess rfl rfl

/-- C8 as stated is false on this module: the SessionRunRequest conversion is
a total function with no failure channel and performs no ordering validation,
so a request whose times vector is not strictly ascending is accepted with
its times copied verbatim rather than rejected. -/
theorem run_request_counterexample :
    ¬ strictlyAscending [5, 3] ∧
    SessionRunRequest.ofDecoded ⟨"sid", [5, 3]⟩ =
      { session_id := "sid", times := [5, 3] } :=
  ⟨by simp [strictlyAscending, List.chain'_cons], rfl⟩

/-- C8 amended: the conversion of a SessionRunRequest performs no cycle-order
validation; even a final_cycles vector that is not strictly ascending is
passed through verbatim and accepted, with no InvalidCycleOrder rejection in
this module (the ordering check belongs to the remote run operation). -/
theorem run_request_no_validation
    (r : manager_high.SessionRunRequest)
    (h : ¬ strictlyAscending r.final_cycles) :
    (SessionRunRequest.ofDecoded r).times = r.final_cycles ∧
    ¬ strictlyAscending (SessionRunRequest.ofDecoded r).times :=
  ⟨rfl, h⟩

/-- C8 amended witness: a concrete non-ascending request is passed through. -/
theorem run_request_no_validation_witness :
    (¬ strictlyAscending [9, 2, 4]) ∧
    ((SessionRunRequest.ofDecoded ⟨"s2", [9, 2, 4]⟩).times = [9, 2, 4] ∧
      ¬ strictlyAscending (SessionRunRequest.ofDecoded ⟨"s2", [9, 2, 4]⟩).times) :=
  ⟨by simp [strictlyAscending, List.chain'_cons],
   run_request_no_validation ⟨"s2", [9, 2, 4]⟩
     (by simp [strictlyAscending, List.chain'_cons])⟩

/-- C9: for every Access produced by the conversion from a decoded access,
the top-level address field equals the address field of its embedded proof,
which is the decoded proof message's address. -/
theorem access_address_eq_proof_address
    (a : cartesi_base.Access) (acc : Access)
    (h : Access.ofDecoded a = .ok acc) :
    acc.address = acc.proof.address ∧
    ∃ p, a.proof = some p ∧ acc.address = p.address := by
  obtain ⟨p, pr, w1, w2, hp, hpr, hr, hl1, hw, hl2, rfl⟩ :=
    (access_ofDecoded_ok_iff a acc).mp h
  exact ⟨rfl, p, hp, proof_ofDecoded_address p pr hpr⟩

/-- C9 witness: a concrete converted access takes its address (7) from its
embedded proof. -/
theorem access_address_eq_proof_address_witness :
    exAccess.address = exAccess.proof.address ∧
    ∃ p, exAccessDecoded.proof = some p ∧ exAccess.address = p.address :=
  access_address_eq_proof_address exAccessDecoded exAccess rfl

/-- C10: round-trip of NewSessionRequest through the byte encoding: for every
marshaller satisfying the codec contract and every NewSessionRequest r,
decoding the byte vector obtained by encoding r succeeds and yields a
NewSessionRequest whose session_id equals r.session_id and whose machine
equals r.machine. -/
theorem newSessionRequest_roundtrip (c : NewSessionMarshaller)
    (r : NewSessionRequest) :
    ∃ r', NewSessionRequest.ofBytes c (NewSessionRequest.toBytes c r) =
        .ok r' ∧
      r'.session_id = r.session_id ∧ r'.machine = r.machine := by
  refine ⟨r, ?_, rfl, rfl⟩
  unfold NewSessionRequest.ofBytes NewSessionRequest.toBytes
  rw [c.read_write]
  rfl

end emulator_service
